import Mathlib

/-!
Verification of the goeth state-diffing and reconciliation core.

The development shallowly embeds the Go sources:
* `internal/config/net_executor.go` — the reconciliation executor
  (`NetlinkExecutor.Apply`, `collectCurrent`, `parseDesiredAddresses`);
* `internal/config` applier (`Applier.Apply`) — validation wrapper;
* `internal/monitor/watcher.go` — snapshot collection (`collect`), the diff
  engine (`diffInterfaces`, `sameInterface`, `describeInterfaceChange`,
  `diffAddresses`, `diffStringSets`, `equalStrings`) and the `Run` loop.

Go maps are embedded as association lists built exclusively through
`insertA`, which mirrors Go's `m[k] = v` (overwrite when the key is present,
append otherwise); iteration over a Go map has unspecified order, here it is
the list order of the association list — all theorems stated below are
order-insensitive facts (sets, counts, sortedness) that hold for any
iteration order.  Address parsing (`netlink.ParseAddr` / `Addr.String()`) is
an external library capability; it is abstracted as a function
`parse : String → Option Addr` producing the canonical key and the family,
the two attributes the core reads.  Provider calls are recorded in an
explicit trace.
-/

namespace Goeth

/-- Address family, mirroring `netlink.FAMILY_V4` / `netlink.FAMILY_V6`. -/
inductive Fam where
  | v4
  | v6
deriving DecidableEq

/-- Abstract parsed address: `key` is the canonical string form (IP plus
prefix length, the value of `addr.String()` / `addr.IPNet.String()`), `fam`
the family computed by `addrFamily` from the IP. -/
structure Addr where
  key : String
  fam : Fam
deriving DecidableEq

/-- Family of an address, mirroring `addrFamily` in net_executor.go. -/
def addrFamily (a : Addr) : Fam := a.fam

/-- Lookup in an association list (Go map read `m[k]`). -/
def lookupA {α : Type} : List (String × α) → String → Option α
  | [], _ => none
  | (k, v) :: rest, k' => if k = k' then some v else lookupA rest k'

/-- Key list of an association list. -/
def keysA {α : Type} (m : List (String × α)) : List String :=
  m.map (fun e => e.1)

/-- Go map assignment `m[k] = v`: overwrite the binding when the key is
present, append a new binding otherwise. -/
def insertA {α : Type} (m : List (String × α)) (k : String) (v : α) :
    List (String × α) :=
  if (lookupA m k).isSome then
    m.map (fun e => if e.1 = k then (k, v) else e)
  else m ++ [(k, v)]

/-- Opaque link handle returned by `LinkByName` and threaded to the other
provider calls; the core never inspects it. -/
def Link : Type := Unit

/-- Errors produced by `NetlinkExecutor.Apply`, mirroring the wrapped error
values of net_executor.go (each carries the datum the Go code formats into
the message). -/
inductive ApplyError where
  | lookup (iface : String) (err : String)
  | parseAddr (entry : String)
  | listAddrs (fam : Fam) (err : String)
  | addAddr (key : String) (err : String)
  | delAddr (key : String) (err : String)
deriving DecidableEq

/-- The NetlinkProvider interface of net_executor.go. -/
structure Provider where
  linkByName : String → Except String Link
  addrList : Link → Fam → Except String (List Addr)
  addrAdd : Link → Addr → Except String Unit
  addrDel : Link → Addr → Except String Unit

/-- One provider invocation, recorded in the call trace. -/
inductive Call where
  | linkByName (name : String)
  | addrList (fam : Fam)
  | addrAdd (key : String)
  | addrDel (key : String)
deriving DecidableEq

/-- The JSON configuration record of the config package. -/
structure Configuration where
  Interface : String
  Addresses : List String
deriving DecidableEq

/-- Loop body of `parseDesiredAddresses`: parse each raw string, abort on the
first failure, index parsed addresses by canonical key, collect the families
in first-occurrence order without duplicates. -/
def parseDesiredAux (parse : String → Option Addr) :
    List String → List (String × Addr) → List Fam →
      Except ApplyError (List (String × Addr) × List Fam)
  | [], desired, families => .ok (desired, families)
  | s :: rest, desired, families =>
    match parse s with
    | none => .error (.parseAddr s)
    | some a =>
      parseDesiredAux parse rest (insertA desired a.key a)
        (if a.fam ∈ families then families else families ++ [a.fam])

/-- parseDesiredAddresses of net_executor.go. -/
def parseDesiredAddresses (parse : String → Option Addr) (raw : List String) :
    Except ApplyError (List (String × Addr) × List Fam) :=
  parseDesiredAux parse raw [] []

/-- Loop body of `collectCurrent`: query each family in turn, abort on the
first listing failure, index every returned address by canonical key. -/
def collectCurrentAux (p : Provider) (link : Link) :
    List Fam → List (String × Addr) →
      Except ApplyError (List (String × Addr)) × List Call
  | [], current => (.ok current, [])
  | fam :: rest, current =>
    match p.addrList link fam with
    | .error e => (.error (.listAddrs fam e), [.addrList fam])
    | .ok addrs =>
      let r := collectCurrentAux p link rest
        (addrs.foldl (fun m a => insertA m a.key a) current)
      (r.1, .addrList fam :: r.2)

/-- collectCurrent of net_executor.go. -/
def collectCurrent (p : Provider) (link : Link) (families : List Fam) :
    Except ApplyError (List (String × Addr)) × List Call :=
  collectCurrentAux p link families []

/-- Add loop of `Apply`: for every desired entry absent from current, call
AddrAdd; the first failure aborts with the offending key. -/
def applyAdds (p : Provider) (link : Link) :
    List (String × Addr) → List (String × Addr) →
      Except ApplyError Unit × List Call
  | [], _ => (.ok (), [])
  | (k, a) :: rest, current =>
    if (lookupA current k).isSome then applyAdds p link rest current
    else
      match p.addrAdd link a with
      | .error e => (.error (.addAddr k e), [.addrAdd k])
      | .ok _ =>
        let r := applyAdds p link rest current
        (r.1, .addrAdd k :: r.2)

/-- Delete loop of `Apply`: for every current entry absent from desired, call
AddrDel; the first failure aborts with the offending key. -/
def applyDels (p : Provider) (link : Link) :
    List (String × Addr) → List (String × Addr) →
      Except ApplyError Unit × List Call
  | [], _ => (.ok (), [])
  | (k, a) :: rest, desired =>
    if (lookupA desired k).isSome then applyDels p link rest desired
    else
      match p.addrDel link a with
      | .error e => (.error (.delAddr k e), [.addrDel k])
      | .ok _ =>
        let r := applyDels p link rest desired
        (r.1, .addrDel k :: r.2)

/-- NetlinkExecutor.Apply of net_executor.go, returning the result together
with the trace of provider calls.  The Go nil-provider guard is not
modelled: the provider here is always a value. -/
def Apply (p : Provider) (parse : String → Option Addr) (cfg : Configuration) :
    Except ApplyError Unit × List Call :=
  match p.linkByName cfg.Interface with
  | .error e => (.error (.lookup cfg.Interface e), [.linkByName cfg.Interface])
  | .ok link =>
    match parseDesiredAddresses parse cfg.Addresses with
    | .error e => (.error e, [.linkByName cfg.Interface])
    | .ok (desired, families) =>
      let cur := collectCurrent p link families
      match cur.1 with
      | .error e => (.error e, .linkByName cfg.Interface :: cur.2)
      | .ok current =>
        let adds := applyAdds p link desired current
        match adds.1 with
        | .error e => (.error e, .linkByName cfg.Interface :: (cur.2 ++ adds.2))
        | .ok _ =>
          let dels := applyDels p link current desired
          (dels.1, .linkByName cfg.Interface :: (cur.2 ++ adds.2 ++ dels.2))

/-- Errors produced by `Applier.Apply`. -/
inductive ApplierError where
  | emptyInterface
  | noAddresses
  | exec (e : ApplyError)
deriving DecidableEq

/-- Applier.Apply of the config package, wrapping a NetlinkExecutor: validate
the configuration, then delegate to `Apply`.  The Go nil-executor guard is
not modelled: the executor here is always a value. -/
def ApplierApply (p : Provider) (parse : String → Option Addr)
    (cfg : Configuration) : Except ApplierError Unit × List Call :=
  if cfg.Interface = "" then (.error .emptyInterface, [])
  else if cfg.Addresses.length = 0 then (.error .noAddresses, [])
  else
    let r := Apply p parse cfg
    (match r.1 with
     | .error e => .error (.exec e)
     | .ok _ => .ok (), r.2)

/-- Keys for which the add loop issues an AddrAdd call: desired entries whose
key is absent from current, in desired order. -/
def addScript (desired current : List (String × Addr)) : List String :=
  (desired.filter (fun e => (lookupA current e.1).isNone)).map (fun e => e.1)

/-- Keys for which the delete loop issues an AddrDel call: current entries
whose key is absent from desired, in current order. -/
def delScript (desired current : List (String × Addr)) : List String :=
  (current.filter (fun e => (lookupA desired e.1).isNone)).map (fun e => e.1)

/-- Network interface record of the interfaces package. -/
structure Interface where
  Name : String
  HardwareAddr : String
  MTU : Int
  Flags : List String
deriving DecidableEq

/-- equalStrings of watcher.go: length check plus element-wise comparison. -/
def equalStrings (a b : List String) : Bool :=
  if a.length ≠ b.length then false
  else (a.zip b).all (fun p => p.1 == p.2)

/-- sameInterface of watcher.go: name, hardware address, MTU, then the flag
sequence element-wise in order. -/
def sameInterface (a b : Interface) : Bool :=
  if a.Name != b.Name || a.HardwareAddr != b.HardwareAddr || a.MTU != b.MTU then
    false
  else if a.Flags.length ≠ b.Flags.length then false
  else (a.Flags.zip b.Flags).all (fun p => p.1 == p.2)

/-- describeInterfaceChange of watcher.go: one descriptor per changed field
(MTU, hardware address, flags), falling back to a fixed message when none
applies. -/
def describeInterfaceChange (before after : Interface) : List String :=
  let c1 : List String :=
    if before.MTU ≠ after.MTU then
      ["MTU " ++ toString before.MTU ++ "→" ++ toString after.MTU]
    else []
  let c2 : List String :=
    if before.HardwareAddr ≠ after.HardwareAddr then
      c1 ++ ["HW " ++ before.HardwareAddr ++ "→" ++ after.HardwareAddr]
    else c1
  let c3 : List String :=
    if equalStrings before.Flags after.Flags then c2
    else
      c2 ++ ["flags [" ++ String.intercalate "," before.Flags ++ "]→[" ++
        String.intercalate "," after.Flags ++ "]"]
  if c3 = [] then ["no visible field differences"] else c3

/-- Updated-entry record of diffInterfaces (interfaceChange in watcher.go). -/
structure InterfaceChange where
  Name : String
  Before : Interface
  After : Interface
deriving DecidableEq

/-- Name order on interfaces used by the sort calls of diffInterfaces. -/
def nameLE (a b : Interface) : Prop := a.Name ≤ b.Name

/-- Name order on updated entries used by the sort call of diffInterfaces. -/
def changeLE (a b : InterfaceChange) : Prop := a.Name ≤ b.Name

instance : DecidableRel nameLE := fun a b =>
  inferInstanceAs (Decidable (a.Name ≤ b.Name))

instance : DecidableRel changeLE := fun a b =>
  inferInstanceAs (Decidable (a.Name ≤ b.Name))

instance : IsTotal Interface nameLE := ⟨fun a b => le_total a.Name b.Name⟩

instance : IsTrans Interface nameLE :=
  ⟨fun _ _ _ h h' => le_trans h h'⟩

instance : IsTotal InterfaceChange changeLE := ⟨fun a b => le_total a.Name b.Name⟩

instance : IsTrans InterfaceChange changeLE :=
  ⟨fun _ _ _ h h' => le_trans h h'⟩

/-- sort.Slice by name over interfaces. -/
def sortInterfaces (l : List Interface) : List Interface :=
  List.insertionSort nameLE l

/-- sort.Slice by name over updated entries. -/
def sortChanges (l : List InterfaceChange) : List InterfaceChange :=
  List.insertionSort changeLE l

/-- sort.Strings. -/
def sortStrings (l : List String) : List String :=
  List.insertionSort (fun a b => a ≤ b) l

/-- diffInterfaces of watcher.go over association-list snapshots: added =
current-only names, removed = previous-only names, updated = names in both
whose field equality fails; all three sorted by name. -/
def diffInterfaces (prev curr : List (String × Interface)) :
    List Interface × List Interface × List InterfaceChange :=
  let added := (curr.filter (fun e => (lookupA prev e.1).isNone)).map
    (fun e => e.2)
  let updated := curr.filterMap (fun e =>
    match lookupA prev e.1 with
    | none => none
    | some p => if sameInterface p e.2 then none else some ⟨e.1, p, e.2⟩)
  let removed := (prev.filter (fun e => (lookupA curr e.1).isNone)).map
    (fun e => e.2)
  (sortInterfaces added, sortInterfaces removed, sortChanges updated)

/-- diffStringSets of watcher.go: set difference in both directions using
canonical strings as identity, results sorted.  Go builds hash sets from
both slices and iterates them; the distinct values of a slice are its
`dedup`, and the subsequent sort makes the iteration order immaterial. -/
def diffStringSets (old new : List String) : List String × List String :=
  (sortStrings (new.dedup.filter (fun v => !old.contains v)),
   sortStrings (old.dedup.filter (fun v => !new.contains v)))

/-- Per-interface address diff record (addressChange in watcher.go). -/
structure AddressChange where
  Name : String
  Added : List String
  Removed : List String
deriving DecidableEq

/-- diffAddresses of watcher.go: union of names from both mappings, sorted;
per name the two-sided set difference of the address lists (a missing name
yields the empty list, like a nil Go map read); entries with nothing added
nor removed are dropped. -/
def diffAddresses (prev curr : List (String × List String)) :
    List AddressChange :=
  let names := sortStrings ((keysA prev ++ keysA curr).dedup)
  names.filterMap (fun name =>
    let old := (lookupA prev name).getD []
    let new := (lookupA curr name).getD []
    let ds := diffStringSets old new
    if ds.1.isEmpty && ds.2.isEmpty then none
    else some ⟨name, ds.1, ds.2⟩)

/-- Snapshot of watcher.go: interfaces and addresses keyed by name. -/
structure Snapshot where
  interfaces : List (String × Interface)
  addresses : List (String × List String)
deriving DecidableEq

/-- One invocation of the Lister or Viewer provider. -/
inductive PCall where
  | list
  | view (name : String)
deriving DecidableEq

/-- The Watcher configuration: provider behaviour, polling interval
(nanoseconds, as Go's time.Duration), optional interface filter, and whether
a Writer is attached (the sink itself is opaque). -/
structure WatcherM where
  lister : Except String (List Interface)
  viewer : String → Except String (List String)
  Interval : Int
  Interface : String
  hasWriter : Bool

/-- Loop body of Watcher.collect: skip interfaces filtered out, record the
interface and its sorted addresses, abort on the first Viewer failure. -/
def collectAux (w : WatcherM) :
    List Interface → Snapshot → Except String Snapshot × List PCall
  | [], snap => (.ok snap, [])
  | iface :: rest, snap =>
    if w.Interface ≠ "" ∧ iface.Name ≠ w.Interface then collectAux w rest snap
    else
      match w.viewer iface.Name with
      | .error e => (.error e, [.view iface.Name])
      | .ok addrs =>
        let r := collectAux w rest
          ⟨insertA snap.interfaces iface.Name iface,
           insertA snap.addresses iface.Name (sortStrings addrs)⟩
        (r.1, .view iface.Name :: r.2)

/-- Watcher.collect of watcher.go: list interfaces, build the snapshot, and
when a filter is configured but absent from the listing record an empty
address entry for it. -/
def collect (w : WatcherM) : Except String Snapshot × List PCall :=
  match w.lister with
  | .error e => (.error e, [.list])
  | .ok ifaces =>
    let r := collectAux w ifaces ⟨[], []⟩
    match r.1 with
    | .error e => (.error e, .list :: r.2)
    | .ok snap =>
      (.ok (if w.Interface ≠ "" ∧ (lookupA snap.interfaces w.Interface).isNone
            then ⟨snap.interfaces, insertA snap.addresses w.Interface []⟩
            else snap),
       .list :: r.2)

/-- External events driving one iteration of the Run loop: a context
cancellation or a ticker tick. -/
inductive WEvent where
  | cancel
  | tick

/-- Abstract output emissions of the watcher (the text formatting itself is
an external collaborator). -/
inductive Out where
  | initial (snap : Snapshot)
  | report (prev curr : Snapshot)

/-- Termination reasons of Watcher.Run. -/
inductive RunErr where
  | writerRequired
  | intervalNotPositive
  | collectFailed (e : String)
  | cancelled
deriving DecidableEq

/-- Polling loop of Watcher.Run over an explicit event schedule: cancellation
terminates with the context error, a tick collects the next snapshot
(aborting on failure), reports changes against the previous one and carries
the new snapshot forward; an exhausted schedule leaves the loop still
running (`none`). -/
def runLoop (w : WatcherM) :
    Snapshot → List WEvent → Option RunErr × List PCall × List Out
  | _, [] => (none, [], [])
  | _, WEvent.cancel :: _ => (some .cancelled, [], [])
  | current, WEvent.tick :: rest =>
    let c := collect w
    match c.1 with
    | .error e => (some (.collectFailed e), c.2, [])
    | .ok next =>
      let r := runLoop w next rest
      (r.1, c.2 ++ r.2.1, .report current next :: r.2.2)

/-- Watcher.Run of watcher.go: validate the Writer and the Interval, collect
the initial snapshot, emit the initial report, then poll. -/
def run (w : WatcherM) (events : List WEvent) :
    Option RunErr × List PCall × List Out :=
  if w.hasWriter = false then (some .writerRequired, [], [])
  else if w.Interval ≤ 0 then (some .intervalNotPositive, [], [])
  else
    let c := collect w
    match c.1 with
    | .error e => (some (.collectFailed e), c.2, [])
    | .ok current =>
      let r := runLoop w current events
      (r.1, c.2 ++ r.2.1, .initial current :: r.2.2)

/-- Concrete parser fixture covering the canonical scenario strings of the
test suite. -/
def demoParse : String → Option Addr := fun s =>
  if s = "10.0.0.10/24" then some ⟨"10.0.0.10/24", Fam.v4⟩
  else if s = "2001:db8::10/64" then some ⟨"2001:db8::10/64", Fam.v6⟩
  else if s = "10.0.0.5/24" then some ⟨"10.0.0.5/24", Fam.v4⟩
  else if s = "10.0.0.1/24" then some ⟨"10.0.0.1/24", Fam.v4⟩
  else none

/-- Live kernel address state fixture: two v4 addresses, no v6 address. -/
def demoLive : Fam → List Addr
  | Fam.v4 => [⟨"10.0.0.5/24", Fam.v4⟩, ⟨"10.0.0.10/24", Fam.v4⟩]
  | Fam.v6 => []

/-- Provider fixture serving demoLive, with always-succeeding mutations. -/
def demoProvider : Provider :=
  ⟨fun _ => .ok (), fun _ fam => .ok (demoLive fam),
   fun _ _ => .ok (), fun _ _ => .ok ()⟩

/-- Provider fixture whose link lookup fails. -/
def errProvider : Provider :=
  ⟨fun _ => .error "boom", fun _ fam => .ok (demoLive fam),
   fun _ _ => .ok (), fun _ _ => .ok ()⟩

/-- Scenario configuration: one v4 and one v6 desired address on eth0. -/
def demoCfg : Configuration := ⟨"eth0", ["10.0.0.10/24", "2001:db8::10/64"]⟩

/-- Configuration whose desired set equals the live v4 state. -/
def sameCfg : Configuration := ⟨"eth0", ["10.0.0.5/24", "10.0.0.10/24"]⟩

/-- Configuration with an unparseable second entry. -/
def badCfg : Configuration := ⟨"eth0", ["10.0.0.1/24", "nope"]⟩

/-- Desired map produced by parsing demoCfg. -/
def demoDesired : List (String × Addr) :=
  [("10.0.0.10/24", ⟨"10.0.0.10/24", Fam.v4⟩),
   ("2001:db8::10/64", ⟨"2001:db8::10/64", Fam.v6⟩)]

/-- Current map collected from demoLive for families v4 and v6. -/
def demoCurrent : List (String × Addr) :=
  [("10.0.0.5/24", ⟨"10.0.0.5/24", Fam.v4⟩),
   ("10.0.0.10/24", ⟨"10.0.0.10/24", Fam.v4⟩)]

/-- Interface fixture eth0. -/
def eth0 : Interface := ⟨"eth0", "aa:bb", 1500, ["up"]⟩

/-- Interface fixture eth0 after an MTU change. -/
def eth0J : Interface := ⟨"eth0", "aa:bb", 9000, ["up"]⟩

/-- Interface fixture eth1. -/
def eth1 : Interface := ⟨"eth1", "cc:dd", 1500, ["up"]⟩

/-- Watcher fixture: filter eth0 while only eth1 is listed. -/
def demoWatcher : WatcherM :=
  ⟨.ok [eth1], fun _ => .ok ["192.0.2.1/24"], 5, "eth0", true⟩

/-- Watcher fixture without a Writer. -/
def noWriterWatcher : WatcherM :=
  ⟨.ok [eth0], fun _ => .ok [], 5, "", false⟩

/-- Watcher fixture with a zero interval. -/
def zeroIntervalWatcher : WatcherM :=
  ⟨.ok [eth0], fun _ => .ok [], 0, "", true⟩

/-- Configuration fixture with an empty interface name. -/
def emptyIfaceCfg : Configuration := ⟨"", ["10.0.0.1/24"]⟩

/-- Configuration fixture with an empty desired address list. -/
def emptyAddrsCfg : Configuration := ⟨"eth0", []⟩

/-- Previous interface map fixture. -/
def prevIfaces : List (String × Interface) := [("eth0", eth0)]

/-- Current interface map fixture: eth0 changed MTU, eth1 appeared. -/
def currIfaces : List (String × Interface) := [("eth0", eth0J), ("eth1", eth1)]

/-- Previous address map fixture. -/
def prevAddrs : List (String × List String) :=
  [("eth0", ["10.0.0.1/24", "10.0.0.2/24"])]

/-- Permuted previous address map fixture. -/
def prevAddrsP : List (String × List String) :=
  [("eth0", ["10.0.0.2/24", "10.0.0.1/24"])]

/-- Current address map fixture. -/
def currAddrs : List (String × List String) :=
  [("eth0", ["10.0.0.2/24", "10.0.0.3/24"])]

/-- Permuted current address map fixture. -/
def currAddrsP : List (String × List String) :=
  [("eth0", ["10.0.0.3/24", "10.0.0.2/24"])]

/-- Snapshot collected by demoWatcher: the filtered interface is absent, so
only its empty address entry is recorded. -/
def demoSnap : Snapshot := ⟨[], [("eth0", [])]⟩

/-- Lookup succeeds exactly on the recorded keys. -/
theorem lookupA_isSome_iff {α : Type} :
    ∀ (m : List (String × α)) (k : String),
      (lookupA m k).isSome ↔ k ∈ keysA m
  | [], k => by simp [lookupA, keysA]
  | (k₀, v₀) :: rest, k => by
    by_cases h : k₀ = k
    · subst h
      simp [lookupA, keysA]
    · simp [lookupA, keysA, h, lookupA_isSome_iff rest k, Ne.symm h]

/-- Lookup fails exactly off the recorded keys. -/
theorem lookupA_isNone_iff {α : Type} (m : List (String × α)) (k : String) :
    (lookupA m k).isNone ↔ k ∉ keysA m := by
  rw [← lookupA_isSome_iff]
  cases lookupA m k <;> simp

/-- A successful lookup returns a recorded binding. -/
theorem lookupA_mem {α : Type} :
    ∀ (m : List (String × α)) (k : String) (v : α),
      lookupA m k = some v → (k, v) ∈ m
  | [], _, _ => by simp [lookupA]
  | (k₀, v₀) :: rest, k, v => by
    by_cases h : k₀ = k
    · subst h
      intro h'
      have hv : v₀ = v := by simpa [lookupA] using h'
      subst hv
      exact List.mem_cons_self _ _
    · simp only [lookupA, if_neg h]
      intro h'
      exact List.mem_cons_of_mem _ (lookupA_mem rest k v h')

/-- With distinct keys, every recorded binding is returned by lookup. -/
theorem lookupA_of_mem_nodup {α : Type} :
    ∀ (m : List (String × α)) (k : String) (v : α),
      (keysA m).Nodup → (k, v) ∈ m → lookupA m k = some v
  | [], _, _, _, hm => by simp at hm
  | (k₀, v₀) :: rest, k, v, hn, hm => by
    rcases List.mem_cons.mp hm with h | h
    · obtain ⟨h1, h2⟩ := Prod.mk.injEq .. ▸ h
      simp [lookupA, h1.symm, h2]
    · have hk : k ∈ keysA rest := by
        have : (k, v).1 ∈ keysA rest := List.mem_map_of_mem (fun e => e.1) h
        simpa using this
      have hne : k₀ ≠ k := by
        intro he
        subst he
        exact ((List.nodup_cons.mp (by simpa [keysA] using hn)).1 hk).elim
      simp only [lookupA, if_neg hne]
      exact lookupA_of_mem_nodup rest k v
        ((List.nodup_cons.mp (by simpa [keysA] using hn)).2) h

/-- Every element of an updated map is the new binding or an old element. -/
theorem mem_insertA {α : Type} (m : List (String × α)) (k : String) (v : α)
    (e : String × α) (he : e ∈ insertA m k v) : e = (k, v) ∨ e ∈ m := by
  unfold insertA at he
  by_cases h : (lookupA m k).isSome
  · rw [if_pos h] at he
    rcases List.mem_map.mp he with ⟨e', he', heq⟩
    by_cases h' : e'.1 = k
    · rw [if_pos h'] at heq
      exact Or.inl heq.symm
    · rw [if_neg h'] at heq
      exact Or.inr (heq ▸ he')
  · rw [if_neg h] at he
    rcases List.mem_append.mp he with h' | h'
    · exact Or.inr h'
    · exact Or.inl (by simpa using h')

/-- Keys of a map update: unchanged on overwrite, extended on insert. -/
theorem keysA_insertA {α : Type} (m : List (String × α)) (k : String) (v : α) :
    keysA (insertA m k v) =
      if (lookupA m k).isSome then keysA m else keysA m ++ [k] := by
  unfold insertA
  by_cases h : (lookupA m k).isSome
  · rw [if_pos h, if_pos h]
    unfold keysA
    rw [List.map_map]
    apply List.map_congr_left
    intro e _
    by_cases h' : e.1 = k
    · simp [h']
    · simp [h']
  · rw [if_neg h, if_neg h]
    simp [keysA]

/-- Map update preserves distinctness of keys. -/
theorem nodup_keysA_insertA {α : Type} (m : List (String × α)) (k : String)
    (v : α) (h : (keysA m).Nodup) : (keysA (insertA m k v)).Nodup := by
  rw [keysA_insertA]
  by_cases hs : (lookupA m k).isSome
  · rw [if_pos hs]
    exact h
  · rw [if_neg hs]
    have hk : k ∉ keysA m := by
      intro hk
      exact hs ((lookupA_isSome_iff m k).mpr hk)
    simp [List.nodup_append, h, hk]

/-- Looking up the freshly written key returns the new value. -/
theorem lookupA_insertA_self {α : Type} :
    ∀ (m : List (String × α)) (k : String) (v : α),
      lookupA (insertA m k v) k = some v
  | [], k, v => by simp [insertA, lookupA]
  | (k₀, v₀) :: rest, k, v => by
    by_cases h : k₀ = k
    · subst h
      simp [insertA, lookupA]
    · have hsame : lookupA ((k₀, v₀) :: rest) k = lookupA rest k := by
        simp [lookupA, h]
      by_cases hs : (lookupA rest k).isSome
      · simp only [insertA, hsame, if_pos hs, List.map_cons, if_neg h]
        have := lookupA_insertA_self rest k v
        simp only [insertA, if_pos hs] at this
        simpa [lookupA, h] using this
      · simp only [insertA, hsame, if_neg hs, List.cons_append]
        have := lookupA_insertA_self rest k v
        simp only [insertA, if_neg hs] at this
        simpa [lookupA, h] using this

/-- Fold of map writes over addresses preserves distinctness of keys. -/
theorem nodup_keysA_foldl_insertA :
    ∀ (addrs : List Addr) (m : List (String × Addr)),
      (keysA m).Nodup →
      (keysA (addrs.foldl (fun acc a => insertA acc a.key a) m)).Nodup
  | [], _, h => h
  | a :: rest, m, h =>
    nodup_keysA_foldl_insertA rest _ (nodup_keysA_insertA m a.key a h)

/-- Elements after a fold of map writes: old elements or written addresses. -/
theorem mem_foldl_insertA :
    ∀ (addrs : List Addr) (m : List (String × Addr)) (e : String × Addr),
      e ∈ addrs.foldl (fun acc a => insertA acc a.key a) m →
      e ∈ m ∨ ∃ a ∈ addrs, e = (a.key, a)
  | [], _, _, he => Or.inl he
  | a :: rest, m, e, he => by
    rcases mem_foldl_insertA rest _ e he with h | ⟨a', ha', heq⟩
    · rcases mem_insertA m a.key a e h with h' | h'
      · exact Or.inr ⟨a, List.mem_cons_self a rest, h'⟩
      · exact Or.inl h'
    · exact Or.inr ⟨a', List.mem_cons_of_mem a ha', heq⟩

/-- With a never-failing AddrAdd, the add loop succeeds and issues exactly
the add edit script, in order. -/
theorem applyAdds_ok (p : Provider) (link : Link)
    (h : ∀ a, p.addrAdd link a = .ok ()) :
    ∀ (desired current : List (String × Addr)),
      applyAdds p link desired current =
        (.ok (), (addScript desired current).map Call.addrAdd)
  | [], current => by simp [applyAdds, addScript]
  | (k, a) :: rest, current => by
    cases hcur : lookupA current k with
    | some v =>
      simp [applyAdds, addScript, hcur, applyAdds_ok p link h rest current]
    | none =>
      simp [applyAdds, addScript, hcur, h, applyAdds_ok p link h rest current]

/-- With a never-failing AddrDel, the delete loop succeeds and issues exactly
the delete edit script, in order. -/
theorem applyDels_ok (p : Provider) (link : Link)
    (h : ∀ a, p.addrDel link a = .ok ()) :
    ∀ (current desired : List (String × Addr)),
      applyDels p link current desired =
        (.ok (), (delScript desired current).map Call.addrDel)
  | [], desired => by simp [applyDels, delScript]
  | (k, a) :: rest, desired => by
    cases hdes : lookupA desired k with
    | some v =>
      simp [applyDels, delScript, hdes, applyDels_ok p link h rest desired]
    | none =>
      simp [applyDels, delScript, hdes, h, applyDels_ok p link h rest desired]

/-- When every desired key is already current, the add loop is silent. -/
theorem applyAdds_skip (p : Provider) (link : Link) :
    ∀ (desired current : List (String × Addr)),
      (∀ e ∈ desired, (lookupA current e.1).isSome) →
      applyAdds p link desired current = (.ok (), [])
  | [], _, _ => by simp [applyAdds]
  | (k, a) :: rest, current, hall => by
    have hk : (lookupA current k).isSome := hall (k, a) (List.mem_cons_self _ _)
    simp only [applyAdds, if_pos hk]
    exact applyAdds_skip p link rest current
      (fun e he => hall e (List.mem_cons_of_mem _ he))

/-- When every current key is still desired, the delete loop is silent. -/
theorem applyDels_skip (p : Provider) (link : Link) :
    ∀ (current desired : List (String × Addr)),
      (∀ e ∈ current, (lookupA desired e.1).isSome) →
      applyDels p link current desired = (.ok (), [])
  | [], _, _ => by simp [applyDels]
  | (k, a) :: rest, desired, hall => by
    have hk : (lookupA desired k).isSome := hall (k, a) (List.mem_cons_self _ _)
    simp only [applyDels, if_pos hk]
    exact applyDels_skip p link rest desired
      (fun e he => hall e (List.mem_cons_of_mem _ he))

/-- The add edit script holds exactly the keys desired but not current. -/
theorem mem_addScript (desired current : List (String × Addr)) (k : String) :
    k ∈ addScript desired current ↔
      (lookupA desired k).isSome ∧ (lookupA current k).isNone := by
  unfold addScript
  rw [lookupA_isSome_iff, lookupA_isNone_iff]
  constructor
  · intro h
    rcases List.mem_map.mp h with ⟨e, he, hk⟩
    obtain ⟨hmem, hpred⟩ := List.mem_filter.mp he
    subst hk
    refine ⟨List.mem_map_of_mem (fun e => e.1) hmem, ?_⟩
    rw [← lookupA_isNone_iff]
    simpa using hpred
  · rintro ⟨hmem, hnone⟩
    rcases List.mem_map.mp hmem with ⟨e, he, hk⟩
    have hef : e ∈ List.filter (fun e => (lookupA current e.1).isNone) desired := by
      refine List.mem_filter.mpr ⟨he, ?_⟩
      rw [hk]
      simpa using (lookupA_isNone_iff current k).mpr hnone
    have hmm := List.mem_map_of_mem (fun e => e.1) hef
    simpa [hk] using hmm

/-- The delete edit script holds exactly the keys current but not desired. -/
theorem mem_delScript (desired current : List (String × Addr)) (k : String) :
    k ∈ delScript desired current ↔
      (lookupA current k).isSome ∧ (lookupA desired k).isNone := by
  unfold delScript
  rw [lookupA_isSome_iff, lookupA_isNone_iff]
  constructor
  · intro h
    rcases List.mem_map.mp h with ⟨e, he, hk⟩
    obtain ⟨hmem, hpred⟩ := List.mem_filter.mp he
    subst hk
    refine ⟨List.mem_map_of_mem (fun e => e.1) hmem, ?_⟩
    rw [← lookupA_isNone_iff]
    simpa using hpred
  · rintro ⟨hmem, hnone⟩
    rcases List.mem_map.mp hmem with ⟨e, he, hk⟩
    have hef : e ∈ List.filter (fun e => (lookupA desired e.1).isNone) current := by
      refine List.mem_filter.mpr ⟨he, ?_⟩
      rw [hk]
      simpa using (lookupA_isNone_iff desired k).mpr hnone
    have hmm := List.mem_map_of_mem (fun e => e.1) hef
    simpa [hk] using hmm

/-- Distinct desired keys give a duplicate-free add edit script. -/
theorem nodup_addScript (desired current : List (String × Addr))
    (h : (keysA desired).Nodup) : (addScript desired current).Nodup := by
  unfold addScript
  exact h.sublist ((List.filter_sublist desired).map (fun e => e.1))

/-- Distinct current keys give a duplicate-free delete edit script. -/
theorem nodup_delScript (desired current : List (String × Addr))
    (h : (keysA current).Nodup) : (delScript desired current).Nodup := by
  unfold delScript
  exact h.sublist ((List.filter_sublist current).map (fun e => e.1))

/-- Successful parsing preserves distinctness of the desired keys and of the
family list. -/
theorem parseDesiredAux_nodup (parse : String → Option Addr) :
    ∀ (raw : List String) (desired : List (String × Addr)) (families : List Fam)
      (out : List (String × Addr) × List Fam),
      parseDesiredAux parse raw desired families = .ok out →
      (keysA desired).Nodup → families.Nodup →
      (keysA out.1).Nodup ∧ out.2.Nodup
  | [], desired, families, out, h, hd, hf => by
    simp only [parseDesiredAux, Except.ok.injEq] at h
    subst h
    exact ⟨hd, hf⟩
  | s :: rest, desired, families, out, h, hd, hf => by
    cases hp : parse s with
    | none => simp [parseDesiredAux, hp] at h
    | some a =>
      simp only [parseDesiredAux, hp] at h
      by_cases hm : a.fam ∈ families
      · rw [if_pos hm] at h
        exact parseDesiredAux_nodup parse rest _ _ _ h
          (nodup_keysA_insertA desired a.key a hd) hf
      · rw [if_neg hm] at h
        refine parseDesiredAux_nodup parse rest _ _ _ h
          (nodup_keysA_insertA desired a.key a hd) ?_
        simp [List.nodup_append, hf, hm]

/-- The output family list collects exactly the families of the parsed raw
entries, on top of the accumulator. -/
theorem parseDesiredAux_families (parse : String → Option Addr) :
    ∀ (raw : List String) (desired : List (String × Addr)) (families : List Fam)
      (out : List (String × Addr) × List Fam),
      parseDesiredAux parse raw desired families = .ok out →
      ∀ fam : Fam, fam ∈ out.2 ↔
        fam ∈ families ∨ ∃ s ∈ raw, ∃ a, parse s = some a ∧ a.fam = fam
  | [], desired, families, out, h, fam => by
    simp only [parseDesiredAux, Except.ok.injEq] at h
    subst h
    simp
  | s :: rest, desired, families, out, h, fam => by
    cases hp : parse s with
    | none => simp [parseDesiredAux, hp] at h
    | some a =>
      simp only [parseDesiredAux, hp] at h
      have hhead : (∃ b, parse s = some b ∧ b.fam = fam) ↔ fam = a.fam := by
        rw [hp]
        constructor
        · rintro ⟨b, hb, hf⟩
          cases hb
          exact hf.symm
        · rintro rfl
          exact ⟨a, rfl, rfl⟩
      rw [List.exists_mem_cons_iff, hhead]
      by_cases hm : a.fam ∈ families
      · rw [if_pos hm] at h
        rw [parseDesiredAux_families parse rest _ _ _ h fam]
        have himp : fam = a.fam → fam ∈ families := fun he => he ▸ hm
        tauto
      · rw [if_neg hm] at h
        rw [parseDesiredAux_families parse rest _ _ _ h fam]
        simp only [List.mem_append, List.mem_singleton]
        tauto

/-- Parsing reports the first unparseable entry, whatever the accumulators. -/
theorem parseDesiredAux_first_error (parse : String → Option Addr) :
    ∀ (pre : List String) (s : String) (post : List String)
      (desired : List (String × Addr)) (families : List Fam),
      (∀ t ∈ pre, (parse t).isSome) → parse s = none →
      parseDesiredAux parse (pre ++ s :: post) desired families =
        .error (.parseAddr s)
  | [], s, post, desired, families, _, hs => by
    simp [parseDesiredAux, hs]
  | t :: pre, s, post, desired, families, hall, hs => by
    have ht : (parse t).isSome := hall t (List.mem_cons_self _ _)
    cases hp : parse t with
    | none => rw [hp] at ht; simp at ht
    | some a =>
      simp only [List.cons_append, parseDesiredAux, hp]
      exact parseDesiredAux_first_error parse pre s post _ _
        (fun u hu => hall u (List.mem_cons_of_mem _ hu)) hs

/-- A successful listing pass reports one AddrList call per family, in
order. -/
theorem collectCurrentAux_trace (p : Provider) (link : Link) :
    ∀ (fams : List Fam) (m : List (String × Addr))
      (cur : List (String × Addr)),
      (collectCurrentAux p link fams m).1 = .ok cur →
      (collectCurrentAux p link fams m).2 = fams.map Call.addrList
  | [], m, cur, _ => by simp [collectCurrentAux]
  | fam :: rest, m, cur, h => by
    cases hl : p.addrList link fam with
    | error e => simp [collectCurrentAux, hl] at h
    | ok addrs =>
      simp only [collectCurrentAux, hl, List.map_cons, List.cons.injEq] at h ⊢
      exact ⟨trivial, collectCurrentAux_trace p link rest _ cur h⟩

/-- Every binding of the collected current map is an accumulator binding or
an address listed for one of the queried families. -/
theorem collectCurrentAux_mem (p : Provider) (link : Link) :
    ∀ (fams : List Fam) (m : List (String × Addr))
      (cur : List (String × Addr)),
      (collectCurrentAux p link fams m).1 = .ok cur →
      ∀ e ∈ cur, e ∈ m ∨ ∃ fam ∈ fams, ∃ addrs,
        p.addrList link fam = .ok addrs ∧ ∃ a ∈ addrs, e = (a.key, a)
  | [], m, cur, h, e, he => by
    simp only [collectCurrentAux, Except.ok.injEq] at h
    subst h
    exact Or.inl he
  | fam :: rest, m, cur, h, e, he => by
    cases hl : p.addrList link fam with
    | error er => simp [collectCurrentAux, hl] at h
    | ok addrs =>
      simp only [collectCurrentAux, hl] at h
      rcases collectCurrentAux_mem p link rest _ cur h e he with hm | hrest
      · rcases mem_foldl_insertA addrs m e hm with hm' | ⟨a, ha, heq⟩
        · exact Or.inl hm'
        · exact Or.inr ⟨fam, List.mem_cons_self _ _, addrs, hl, a, ha, heq⟩
      · rcases hrest with ⟨fam', hfam', addrs', hl', a, ha, heq⟩
        exact Or.inr ⟨fam', List.mem_cons_of_mem _ hfam', addrs', hl', a, ha, heq⟩

/-- A successful listing pass keeps the current keys distinct. -/
theorem collectCurrentAux_nodup (p : Provider) (link : Link) :
    ∀ (fams : List Fam) (m : List (String × Addr))
      (cur : List (String × Addr)),
      (collectCurrentAux p link fams m).1 = .ok cur →
      (keysA m).Nodup → (keysA cur).Nodup
  | [], m, cur, h, hm => by
    simp only [collectCurrentAux, Except.ok.injEq] at h
    subst h
    exact hm
  | fam :: rest, m, cur, h, hm => by
    cases hl : p.addrList link fam with
    | error er => simp [collectCurrentAux, hl] at h
    | ok addrs =>
      simp only [collectCurrentAux, hl] at h
      exact collectCurrentAux_nodup p link rest _ cur h
        (nodup_keysA_foldl_insertA addrs m hm)

/-- C1: when every desired entry parses and the provider succeeds, Apply
issues exactly one AddrAdd per canonical key desired but not current and
exactly one AddrDel per canonical key current but not desired, with every
AddrAdd before any AddrDel; desired duplicates collapse to single keys
(duplicate-free scripts). -/
theorem apply_edit_script (p : Provider) (parse : String → Option Addr)
    (cfg : Configuration) (link : Link) (desired : List (String × Addr))
    (families : List Fam) (current : List (String × Addr))
    (hlink : p.linkByName cfg.Interface = .ok link)
    (hparse : parseDesiredAddresses parse cfg.Addresses = .ok (desired, families))
    (hcur : (collectCurrent p link families).1 = .ok current)
    (hadd : ∀ a, p.addrAdd link a = .ok ())
    (hdel : ∀ a, p.addrDel link a = .ok ()) :
    Apply p parse cfg =
      (.ok (), Call.linkByName cfg.Interface ::
        ((collectCurrent p link families).2 ++
          ((addScript desired current).map Call.addrAdd ++
            (delScript desired current).map Call.addrDel))) ∧
    (∀ k, k ∈ addScript desired current ↔
      (lookupA desired k).isSome ∧ (lookupA current k).isNone) ∧
    (∀ k, k ∈ delScript desired current ↔
      (lookupA current k).isSome ∧ (lookupA desired k).isNone) ∧
    (addScript desired current).Nodup ∧
    (delScript desired current).Nodup := by
  have hnodup := parseDesiredAux_nodup parse cfg.Addresses [] []
    (desired, families) hparse (by simp [keysA]) List.nodup_nil
  have hcurnodup := collectCurrentAux_nodup p link families [] current hcur
    (by simp [keysA])
  refine ⟨?_, mem_addScript desired current, mem_delScript desired current,
    nodup_addScript desired current hnodup.1, nodup_delScript desired current hcurnodup⟩
  simp only [Apply, hlink, hparse, hcur, applyAdds_ok p link hadd,
    applyDels_ok p link hdel, List.append_assoc]

/-- C2: when the current canonical key set equals the desired one, Apply
succeeds and issues no AddrAdd and no AddrDel call, so an unchanged desired
set against unchanged live state reconciles silently. -/
theorem apply_idempotent (p : Provider) (parse : String → Option Addr)
    (cfg : Configuration) (link : Link) (desired : List (String × Addr))
    (families : List Fam) (current : List (String × Addr))
    (hlink : p.linkByName cfg.Interface = .ok link)
    (hparse : parseDesiredAddresses parse cfg.Addresses = .ok (desired, families))
    (hcur : (collectCurrent p link families).1 = .ok current)
    (hsame : ∀ k, (lookupA desired k).isSome ↔ (lookupA current k).isSome) :
    Apply p parse cfg =
      (.ok (), Call.linkByName cfg.Interface :: (collectCurrent p link families).2) ∧
    (∀ k, Call.addrAdd k ∉ (Apply p parse cfg).2 ∧
      Call.addrDel k ∉ (Apply p parse cfg).2) := by
  have hadds : applyAdds p link desired current = (.ok (), []) := by
    refine applyAdds_skip p link desired current (fun e he => ?_)
    have hkm : e.1 ∈ keysA desired := by
      simpa [keysA] using List.mem_map_of_mem (fun e => e.1) he
    exact (hsame e.1).mp ((lookupA_isSome_iff desired e.1).mpr hkm)
  have hdels : applyDels p link current desired = (.ok (), []) := by
    refine applyDels_skip p link current desired (fun e he => ?_)
    have hkm : e.1 ∈ keysA current := by
      simpa [keysA] using List.mem_map_of_mem (fun e => e.1) he
    exact (hsame e.1).mpr ((lookupA_isSome_iff current e.1).mpr hkm)
  have happ : Apply p parse cfg =
      (.ok (), Call.linkByName cfg.Interface ::
        (collectCurrent p link families).2) := by
    simp only [Apply, hlink, hparse, hcur, hadds, hdels, List.append_nil]
  refine ⟨happ, fun k => ?_⟩
  have htr : (collectCurrent p link families).2 = families.map Call.addrList :=
    collectCurrentAux_trace p link families [] current hcur
  rw [happ]
  constructor <;> simp [htr, List.mem_map]

/-- C5: an empty interface name or an empty desired address list makes the
applier fail validation before any provider call is issued. -/
theorem applier_validates (p : Provider) (parse : String → Option Addr)
    (cfg : Configuration) (h : cfg.Interface = "" ∨ cfg.Addresses = []) :
    ((ApplierApply p parse cfg).1 = .error .emptyInterface ∨
      (ApplierApply p parse cfg).1 = .error .noAddresses) ∧
    (ApplierApply p parse cfg).2 = [] := by
  by_cases hi : cfg.Interface = ""
  · simp [ApplierApply, hi]
  · rcases h with h | h
    · exact absurd h hi
    · simp [ApplierApply, hi, h]

/-- C7: a failed link lookup aborts Apply with a lookup error, and a failed
address parse aborts with a validation error naming the first unparseable
entry; in both cases no AddrAdd or AddrDel call is issued. -/
theorem apply_aborts_before_mutation (p : Provider)
    (parse : String → Option Addr) (cfg : Configuration) :
    (∀ e, p.linkByName cfg.Interface = .error e →
      Apply p parse cfg =
        (.error (.lookup cfg.Interface e), [Call.linkByName cfg.Interface])) ∧
    (∀ (link : Link) (pre : List String) (s : String) (post : List String),
      p.linkByName cfg.Interface = .ok link →
      cfg.Addresses = pre ++ s :: post →
      (∀ t ∈ pre, (parse t).isSome) → parse s = none →
      Apply p parse cfg =
        (.error (.parseAddr s), [Call.linkByName cfg.Interface])) := by
  constructor
  · intro e he
    simp [Apply, he]
  · intro link pre s post hlink heq hpre hs
    have hperr := parseDesiredAux_first_error parse pre s post [] [] hpre hs
    simp [Apply, hlink, parseDesiredAddresses, heq, hperr]

/-- C6: Apply queries AddrList exactly once per family present in the parsed
desired set and for no other family, and every key passed to AddrDel comes
from the live listing of one of those families — an address of an omitted
family is never deleted. -/
theorem apply_families_queried (p : Provider) (parse : String → Option Addr)
    (cfg : Configuration) (link : Link) (desired : List (String × Addr))
    (families : List Fam) (current : List (String × Addr))
    (live : Fam → List Addr)
    (hlink : p.linkByName cfg.Interface = .ok link)
    (hparse : parseDesiredAddresses parse cfg.Addresses = .ok (desired, families))
    (hlive : ∀ fam, p.addrList link fam = .ok (live fam))
    (hcur : (collectCurrent p link families).1 = .ok current)
    (hadd : ∀ a, p.addrAdd link a = .ok ())
    (hdel : ∀ a, p.addrDel link a = .ok ()) :
    (∀ fam, (Apply p parse cfg).2.count (Call.addrList fam) =
      if fam ∈ families then 1 else 0) ∧
    (∀ fam, fam ∈ families ↔
      ∃ s ∈ cfg.Addresses, ∃ a, parse s = some a ∧ a.fam = fam) ∧
    (∀ k, Call.addrDel k ∈ (Apply p parse cfg).2 →
      ∃ fam ∈ families, ∃ a ∈ live fam, a.key = k) := by
  have happ : Apply p parse cfg =
      (.ok (), Call.linkByName cfg.Interface ::
        ((collectCurrent p link families).2 ++
          ((addScript desired current).map Call.addrAdd ++
            (delScript desired current).map Call.addrDel))) := by
    simp only [Apply, hlink, hparse, hcur, applyAdds_ok p link hadd,
      applyDels_ok p link hdel, List.append_assoc]
  have htr : (collectCurrent p link families).2 = families.map Call.addrList :=
    collectCurrentAux_trace p link families [] current hcur
  have hfnodup : families.Nodup :=
    (parseDesiredAux_nodup parse cfg.Addresses [] [] (desired, families) hparse
      (by simp [keysA]) List.nodup_nil).2
  refine ⟨?_, ?_, ?_⟩
  · intro fam
    rw [happ, htr]
    have hc1 : (List.map Call.addrList families).count (Call.addrList fam) =
        families.count fam :=
      List.count_map_of_injective families Call.addrList
        (fun a b h => by simpa using h) fam
    have hc2 : ((addScript desired current).map Call.addrAdd).count
        (Call.addrList fam) = 0 := by
      rw [List.count_eq_zero]
      simp
    have hc3 : ((delScript desired current).map Call.addrDel).count
        (Call.addrList fam) = 0 := by
      rw [List.count_eq_zero]
      simp
    rw [List.count_cons_of_ne (by simp), List.count_append, List.count_append,
      hc1, hc2, hc3]
    by_cases hm : fam ∈ families
    · rw [if_pos hm, List.count_eq_one_of_mem hfnodup hm]
    · rw [if_neg hm, List.count_eq_zero_of_not_mem hm]
  · intro fam
    have hfam := parseDesiredAux_families parse cfg.Addresses [] []
      (desired, families) hparse fam
    simpa using hfam
  · intro k hk
    rw [happ, htr] at hk
    have hkd : k ∈ delScript desired current := by
      simp only [List.mem_cons, List.mem_append, List.mem_map] at hk
      rcases hk with h | h | h | h
      · simp at h
      · rcases h with ⟨fam, _, hfe⟩
        simp at hfe
      · rcases h with ⟨x, _, hfe⟩
        simp at hfe
      · rcases h with ⟨x, hx, hfe⟩
        have : x = k := by simpa using hfe
        exact this ▸ hx
    have hsome : (lookupA current k).isSome :=
      ((mem_delScript desired current k).mp hkd).1
    rcases Option.isSome_iff_exists.mp hsome with ⟨v, hv⟩
    have hmem : (k, v) ∈ current := lookupA_mem current k v hv
    rcases collectCurrentAux_mem p link families [] current hcur (k, v) hmem with
      h0 | ⟨fam, hfam, addrs, haddrs, a, ha, heq⟩
    · simp at h0
    · have haddr : addrs = live fam := by
        have := (hlive fam) ▸ haddrs
        simpa using this.symm
      refine ⟨fam, hfam, a, haddr ▸ ha, ?_⟩
      have : k = a.key := congrArg Prod.fst heq
      exact this.symm

/-- Witness for C1 at the canonical scenario: desired holds one v4 and one
v6 address, the live v4 state holds one matching and one stale address; the
script adds only the v6 address and removes only the stale v4 address, and
a textual duplicate collapses to a single desired entry. -/
theorem apply_edit_script_witness :
    Apply demoProvider demoParse demoCfg =
      (.ok (), Call.linkByName demoCfg.Interface ::
        ((collectCurrent demoProvider () [Fam.v4, Fam.v6]).2 ++
          ((addScript demoDesired demoCurrent).map Call.addrAdd ++
            (delScript demoDesired demoCurrent).map Call.addrDel))) ∧
    addScript demoDesired demoCurrent = ["2001:db8::10/64"] ∧
    delScript demoDesired demoCurrent = ["10.0.0.5/24"] ∧
    parseDesiredAddresses demoParse ["10.0.0.1/24", "10.0.0.1/24"] =
      .ok ([("10.0.0.1/24", ⟨"10.0.0.1/24", Fam.v4⟩)], [Fam.v4]) :=
  ⟨(apply_edit_script demoProvider demoParse demoCfg () demoDesired
      [Fam.v4, Fam.v6] demoCurrent rfl rfl rfl (fun _ => rfl)
      (fun _ => rfl)).1,
   rfl, rfl, rfl⟩

/-- Witness for C2: a desired set matching the live v4 state reconciles with
no mutation call. -/
theorem apply_idempotent_witness :
    Apply demoProvider demoParse sameCfg =
      (.ok (), Call.linkByName sameCfg.Interface ::
        (collectCurrent demoProvider () [Fam.v4]).2) :=
  (apply_idempotent demoProvider demoParse sameCfg () demoCurrent [Fam.v4]
    demoCurrent rfl rfl rfl (fun _ => Iff.rfl)).1

/-- Witness for C5 at an empty interface name and at an empty desired list. -/
theorem applier_validates_witness :
    ((((ApplierApply demoProvider demoParse emptyIfaceCfg).1 =
          .error .emptyInterface ∨
        (ApplierApply demoProvider demoParse emptyIfaceCfg).1 =
          .error .noAddresses) ∧
      (ApplierApply demoProvider demoParse emptyIfaceCfg).2 = [])) ∧
    ((((ApplierApply demoProvider demoParse emptyAddrsCfg).1 =
          .error .emptyInterface ∨
        (ApplierApply demoProvider demoParse emptyAddrsCfg).1 =
          .error .noAddresses) ∧
      (ApplierApply demoProvider demoParse emptyAddrsCfg).2 = [])) :=
  ⟨applier_validates demoProvider demoParse emptyIfaceCfg (Or.inl rfl),
   applier_validates demoProvider demoParse emptyAddrsCfg (Or.inr rfl)⟩

/-- Witness for C6: with a v4-and-v6 desired set both families are queried
exactly once, and the v4 presence is certified by a desired entry. -/
theorem apply_families_queried_witness :
    (Apply demoProvider demoParse demoCfg).2.count (Call.addrList Fam.v6) =
      (if Fam.v6 ∈ [Fam.v4, Fam.v6] then 1 else 0) ∧
    (Fam.v4 ∈ [Fam.v4, Fam.v6] ↔
      ∃ s ∈ demoCfg.Addresses, ∃ a, demoParse s = some a ∧ a.fam = Fam.v4) :=
  ⟨(apply_families_queried demoProvider demoParse demoCfg () demoDesired
      [Fam.v4, Fam.v6] demoCurrent demoLive rfl rfl (fun _ => rfl) rfl
      (fun _ => rfl) (fun _ => rfl)).1 Fam.v6,
   (apply_families_queried demoProvider demoParse demoCfg () demoDesired
      [Fam.v4, Fam.v6] demoCurrent demoLive rfl rfl (fun _ => rfl) rfl
      (fun _ => rfl) (fun _ => rfl)).2.1 Fam.v4⟩

/-- Witness for C7: a failing link lookup and an unparseable second entry
each abort Apply right after the lookup call. -/
theorem apply_aborts_before_mutation_witness :
    Apply errProvider demoParse demoCfg =
      (.error (.lookup demoCfg.Interface "boom"),
        [Call.linkByName demoCfg.Interface]) ∧
    Apply demoProvider demoParse badCfg =
      (.error (.parseAddr "nope"), [Call.linkByName badCfg.Interface]) :=
  ⟨(apply_aborts_before_mutation errProvider demoParse demoCfg).1 "boom" rfl,
   (apply_aborts_before_mutation demoProvider demoParse badCfg).2 ()
     ["10.0.0.1/24"] "nope" [] rfl rfl
     (fun t ht => by
       rw [List.mem_singleton] at ht
       subst ht
       rfl)
     rfl⟩

/-- C10: Run with no Writer, or with a non-positive interval, fails
validation immediately: no Lister or Viewer call is made and no output is
written, before any snapshot collection. -/
theorem run_validates_config (w : WatcherM) (events : List WEvent)
    (h : w.hasWriter = false ∨ w.Interval ≤ 0) :
    (run w events).1 = some (if w.hasWriter = false then RunErr.writerRequired
      else RunErr.intervalNotPositive) ∧
    (run w events).2.1 = [] ∧ (run w events).2.2 = [] := by
  by_cases hw : w.hasWriter = false
  · simp [run, hw]
  · rcases h with h | h
    · exact absurd h hw
    · simp [run, hw, h]

/-- Witness for C10 at a writerless watcher and at a zero interval. -/
theorem run_validates_config_witness :
    ((run noWriterWatcher []).1 =
        some (if noWriterWatcher.hasWriter = false then RunErr.writerRequired
          else RunErr.intervalNotPositive) ∧
      (run noWriterWatcher []).2.1 = [] ∧ (run noWriterWatcher []).2.2 = []) ∧
    ((run zeroIntervalWatcher []).1 =
        some (if zeroIntervalWatcher.hasWriter = false then RunErr.writerRequired
          else RunErr.intervalNotPositive) ∧
      (run zeroIntervalWatcher []).2.1 = [] ∧
      (run zeroIntervalWatcher []).2.2 = []) :=
  ⟨run_validates_config noWriterWatcher [] (Or.inl rfl),
   run_validates_config zeroIntervalWatcher [] (Or.inr (le_refl 0))⟩

/-- Element-wise comparison of equal-length string lists decides equality. -/
theorem zip_all_eq :
    ∀ (xs ys : List String), xs.length = ys.length →
      ((((xs.zip ys).all fun p => p.1 == p.2) = true) ↔ xs = ys)
  | [], [], _ => by simp
  | x :: xs, y :: ys, h => by
    simp only [List.zip_cons_cons, List.all_cons, Bool.and_eq_true, beq_iff_eq,
      List.cons.injEq]
    rw [zip_all_eq xs ys (by simpa using h)]
  | [], _ :: _, h => by simp at h
  | _ :: _, [], h => by simp at h

/-- equalStrings decides list equality. -/
theorem equalStrings_iff (a b : List String) :
    equalStrings a b = true ↔ a = b := by
  unfold equalStrings
  by_cases hl : a.length = b.length
  · rw [if_neg (by simpa using hl)]
    exact zip_all_eq a b hl
  · rw [if_pos (by simpa using hl)]
    simp only [Bool.false_eq_true, false_iff]
    intro he
    exact hl (he ▸ rfl)

/-- sameInterface decides field-wise equality: name, hardware address, MTU
and the flag sequence element-wise in order. -/
theorem sameInterface_iff (a b : Interface) :
    sameInterface a b = true ↔
      (a.Name = b.Name ∧ a.HardwareAddr = b.HardwareAddr ∧ a.MTU = b.MTU ∧
        a.Flags = b.Flags) := by
  unfold sameInterface
  by_cases h1 : a.Name = b.Name
  · by_cases h2 : a.HardwareAddr = b.HardwareAddr
    · by_cases h3 : a.MTU = b.MTU
      · rw [if_neg (by simp [h1, h2, h3])]
        by_cases hl : a.Flags.length = b.Flags.length
        · rw [if_neg (by simpa using hl)]
          rw [zip_all_eq a.Flags b.Flags hl]
          simp [h1, h2, h3]
        · rw [if_pos (by simpa using hl)]
          simp only [Bool.false_eq_true, false_iff, not_and]
          intro _ _ _ he
          exact hl (he ▸ rfl)
      · rw [if_pos (by simp [h3])]
        simp [h3]
    · rw [if_pos (by simp [h2])]
      simp [h2]
  · rw [if_pos (by simp [h1])]
    simp [h1]

/-- The change descriptor list is never empty. -/
theorem describeInterfaceChange_ne_nil (a b : Interface) :
    describeInterfaceChange a b ≠ [] := by
  unfold describeInterfaceChange
  by_cases hm : a.MTU = b.MTU <;>
    by_cases hh : a.HardwareAddr = b.HardwareAddr <;>
      by_cases hf : equalStrings a.Flags b.Flags <;>
        simp [hm, hh, hf]

/-- When no individual field descriptor applies the descriptor list falls
back to the fixed message. -/
theorem describeInterfaceChange_fallback (a b : Interface)
    (hm : a.MTU = b.MTU) (hh : a.HardwareAddr = b.HardwareAddr)
    (hf : a.Flags = b.Flags) :
    describeInterfaceChange a b = ["no visible field differences"] := by
  have hfb : equalStrings a.Flags b.Flags = true := (equalStrings_iff _ _).mpr hf
  simp [describeInterfaceChange, hm, hh, hfb]

/-- C8: an interface present in both snapshots is reported as updated
exactly when one of name, hardware address, MTU or the ordered flag sequence
changed; the descriptor list of a change is never empty, and when no
individual field descriptor applies it falls back to the single fixed
entry. -/
theorem diffInterfaces_update_semantics :
    (∀ a b : Interface, sameInterface a b = true ↔
      (a.Name = b.Name ∧ a.HardwareAddr = b.HardwareAddr ∧ a.MTU = b.MTU ∧
        a.Flags = b.Flags)) ∧
    (∀ (prev curr : List (String × Interface)), (keysA curr).Nodup →
      ∀ (n : String) (p c : Interface),
        lookupA prev n = some p → lookupA curr n = some c →
        ((∃ ch ∈ (diffInterfaces prev curr).2.2, ch.Name = n) ↔
          sameInterface p c = false)) ∧
    (∀ a b : Interface, describeInterfaceChange a b ≠ []) ∧
    (∀ a b : Interface, a.MTU = b.MTU → a.HardwareAddr = b.HardwareAddr →
      a.Flags = b.Flags →
      describeInterfaceChange a b = ["no visible field differences"]) := by
  refine ⟨sameInterface_iff, ?_, describeInterfaceChange_ne_nil,
    describeInterfaceChange_fallback⟩
  intro prev curr hnd n p c hp hc
  have hmemperm : ∀ ch, ch ∈ (diffInterfaces prev curr).2.2 ↔
      ch ∈ curr.filterMap (fun e =>
        match lookupA prev e.1 with
        | none => none
        | some q => if sameInterface q e.2 then none
                    else some ⟨e.1, q, e.2⟩) := by
    intro ch
    simp only [diffInterfaces]
    exact (List.perm_insertionSort changeLE _).mem_iff
  constructor
  · rintro ⟨ch, hch, hname⟩
    rcases List.mem_filterMap.mp ((hmemperm ch).mp hch) with ⟨e, he, hfe⟩
    cases hlp : lookupA prev e.1 with
    | none => rw [hlp] at hfe; simp at hfe
    | some q =>
      rw [hlp] at hfe
      dsimp only at hfe
      by_cases hsi : sameInterface q e.2 = true
      · rw [if_pos hsi] at hfe
        simp at hfe
      · rw [if_neg hsi] at hfe
        have hch1 : ch = ⟨e.1, q, e.2⟩ := by simpa using hfe.symm
        have hen : e.1 = n := by rw [hch1] at hname; exact hname
        have hq : q = p := by
          rw [hen] at hlp
          exact Option.some.injEq .. ▸ (hlp.symm.trans hp)
        have he2 : e.2 = c := by
          have hl2 : lookupA curr e.1 = some e.2 :=
            lookupA_of_mem_nodup curr e.1 e.2 hnd (by simpa using he)
          rw [hen] at hl2
          exact Option.some.injEq .. ▸ (hl2.symm.trans hc)
        rw [hq, he2] at hsi
        exact Bool.not_eq_true _ ▸ hsi
  · intro hsi
    have hmem : (n, c) ∈ curr := lookupA_mem curr n c hc
    refine ⟨⟨n, p, c⟩, (hmemperm ⟨n, p, c⟩).mpr ?_, rfl⟩
    refine List.mem_filterMap.mpr ⟨(n, c), hmem, ?_⟩
    simp only [hp, hsi]
    rw [if_neg (by simp [hsi])]

/-- Witness for C8: an MTU change on eth0 is flagged, field-wise equality is
decided on the fixtures, and identical fields fall back to the fixed
descriptor. -/
theorem diffInterfaces_update_semantics_witness :
    (sameInterface eth0 eth0J = true ↔
      (eth0.Name = eth0J.Name ∧ eth0.HardwareAddr = eth0J.HardwareAddr ∧
        eth0.MTU = eth0J.MTU ∧ eth0.Flags = eth0J.Flags)) ∧
    ((∃ ch ∈ (diffInterfaces prevIfaces currIfaces).2.2, ch.Name = "eth0") ↔
      sameInterface eth0 eth0J = false) ∧
    describeInterfaceChange eth0 eth0J ≠ [] ∧
    describeInterfaceChange eth0 eth0 = ["no visible field differences"] :=
  ⟨diffInterfaces_update_semantics.1 eth0 eth0J,
   diffInterfaces_update_semantics.2.1 prevIfaces currIfaces (by decide)
     "eth0" eth0 eth0J rfl rfl,
   diffInterfaces_update_semantics.2.2.1 eth0 eth0J,
   diffInterfaces_update_semantics.2.2.2 eth0 eth0 rfl rfl rfl⟩

/-- Sorting interfaces by name preserves the set of names. -/
theorem mem_map_name_sortInterfaces (l : List Interface) (n : String) :
    n ∈ (sortInterfaces l).map Interface.Name ↔ n ∈ l.map Interface.Name :=
  ((List.perm_insertionSort nameLE l).map Interface.Name).mem_iff

/-- C3: diffInterfaces splits the union of the two snapshots' names into
added (current only), removed (previous only) and present-in-both, with
updated drawn only from present-in-both; the three outputs are disjoint and
each is sorted by name. -/
theorem diffInterfaces_partition (prev curr : List (String × Interface))
    (hp : ∀ e ∈ prev, e.2.Name = e.1) (hc : ∀ e ∈ curr, e.2.Name = e.1) :
    (∀ n, n ∈ (diffInterfaces prev curr).1.map Interface.Name ↔
      n ∈ keysA curr ∧ n ∉ keysA prev) ∧
    (∀ n, n ∈ (diffInterfaces prev curr).2.1.map Interface.Name ↔
      n ∈ keysA prev ∧ n ∉ keysA curr) ∧
    (∀ ch ∈ (diffInterfaces prev curr).2.2,
      ch.Name ∈ keysA prev ∧ ch.Name ∈ keysA curr) ∧
    (∀ n, (n ∈ keysA prev ∨ n ∈ keysA curr) ↔
      (n ∈ (diffInterfaces prev curr).1.map Interface.Name ∨
        n ∈ (diffInterfaces prev curr).2.1.map Interface.Name ∨
        (n ∈ keysA prev ∧ n ∈ keysA curr))) ∧
    (∀ n, ¬(n ∈ (diffInterfaces prev curr).1.map Interface.Name ∧
      n ∈ (diffInterfaces prev curr).2.1.map Interface.Name)) ∧
    (∀ n, n ∈ (diffInterfaces prev curr).1.map Interface.Name →
      ¬(n ∈ keysA prev ∧ n ∈ keysA curr)) ∧
    (∀ n, n ∈ (diffInterfaces prev curr).2.1.map Interface.Name →
      ¬(n ∈ keysA prev ∧ n ∈ keysA curr)) ∧
    List.Sorted nameLE (diffInterfaces prev curr).1 ∧
    List.Sorted nameLE (diffInterfaces prev curr).2.1 ∧
    List.Sorted changeLE (diffInterfaces prev curr).2.2 := by
  have hadded : ∀ n, n ∈ (diffInterfaces prev curr).1.map Interface.Name ↔
      n ∈ keysA curr ∧ n ∉ keysA prev := by
    intro n
    simp only [diffInterfaces]
    rw [mem_map_name_sortInterfaces]
    rw [List.map_map, List.mem_map]
    constructor
    · rintro ⟨e, he, hname⟩
      obtain ⟨hmem, hpred⟩ := List.mem_filter.mp he
      have hne : e.2.Name = e.1 := hc e hmem
      refine ⟨?_, ?_⟩
      · rw [← hname]
        simp only [Function.comp_apply, hne]
        exact List.mem_map_of_mem (fun e => e.1) hmem
      · rw [← lookupA_isNone_iff]
        have : (lookupA prev e.1).isNone := by simpa using hpred
        simpa [← hname, Function.comp_apply, hne] using this
    · rintro ⟨hin, hout⟩
      rcases List.mem_map.mp hin with ⟨e, he, hk⟩
      refine ⟨e, List.mem_filter.mpr ⟨he, ?_⟩, ?_⟩
      · rw [hk]
        simpa using (lookupA_isNone_iff prev n).mpr hout
      · simp only [Function.comp_apply]
        rw [hc e he, hk]
  have hremoved : ∀ n, n ∈ (diffInterfaces prev curr).2.1.map Interface.Name ↔
      n ∈ keysA prev ∧ n ∉ keysA curr := by
    intro n
    simp only [diffInterfaces]
    rw [mem_map_name_sortInterfaces]
    rw [List.map_map, List.mem_map]
    constructor
    · rintro ⟨e, he, hname⟩
      obtain ⟨hmem, hpred⟩ := List.mem_filter.mp he
      have hne : e.2.Name = e.1 := hp e hmem
      refine ⟨?_, ?_⟩
      · rw [← hname]
        simp only [Function.comp_apply, hne]
        exact List.mem_map_of_mem (fun e => e.1) hmem
      · rw [← lookupA_isNone_iff]
        have : (lookupA curr e.1).isNone := by simpa using hpred
        simpa [← hname, Function.comp_apply, hne] using this
    · rintro ⟨hin, hout⟩
      rcases List.mem_map.mp hin with ⟨e, he, hk⟩
      refine ⟨e, List.mem_filter.mpr ⟨he, ?_⟩, ?_⟩
      · rw [hk]
        simpa using (lookupA_isNone_iff curr n).mpr hout
      · simp only [Function.comp_apply]
        rw [hp e he, hk]
  have hupdated : ∀ ch ∈ (diffInterfaces prev curr).2.2,
      ch.Name ∈ keysA prev ∧ ch.Name ∈ keysA curr := by
    intro ch hch
    have hiff : ch ∈ (diffInterfaces prev curr).2.2 ↔
        ch ∈ curr.filterMap (fun e =>
          match lookupA prev e.1 with
          | none => none
          | some q => if sameInterface q e.2 then none
                      else some ⟨e.1, q, e.2⟩) := by
      simp only [diffInterfaces]
      exact (List.perm_insertionSort changeLE _).mem_iff
    rcases List.mem_filterMap.mp (hiff.mp hch) with ⟨e, he, hfe⟩
    cases hlp : lookupA prev e.1 with
    | none => rw [hlp] at hfe; simp at hfe
    | some q =>
      rw [hlp] at hfe
      dsimp only at hfe
      by_cases hsi : sameInterface q e.2 = true
      · rw [if_pos hsi] at hfe
        simp at hfe
      · rw [if_neg hsi] at hfe
        have hch1 : ch = ⟨e.1, q, e.2⟩ := by simpa using hfe.symm
        have hname : ch.Name = e.1 := by rw [hch1]
        constructor
        · rw [hname, ← lookupA_isSome_iff, hlp]
          rfl
        · rw [hname]
          exact List.mem_map_of_mem (fun e => e.1) he
  refine ⟨hadded, hremoved, hupdated, ?_, ?_, ?_, ?_, ?_, ?_, ?_⟩
  · intro n
    rw [hadded n, hremoved n]
    by_cases h1 : n ∈ keysA prev <;> by_cases h2 : n ∈ keysA curr <;>
      simp [h1, h2]
  · intro n
    rw [hadded n, hremoved n]
    tauto
  · intro n hn
    rw [hadded n] at hn
    tauto
  · intro n hn
    rw [hremoved n] at hn
    tauto
  · simp only [diffInterfaces]
    exact List.sorted_insertionSort nameLE _
  · simp only [diffInterfaces]
    exact List.sorted_insertionSort nameLE _
  · simp only [diffInterfaces]
    exact List.sorted_insertionSort changeLE _

/-- Witness for C3 on the fixtures: eth1 is added, nothing is removed, and
the added output is sorted. -/
theorem diffInterfaces_partition_witness :
    ("eth1" ∈ (diffInterfaces prevIfaces currIfaces).1.map Interface.Name ↔
      "eth1" ∈ keysA currIfaces ∧ "eth1" ∉ keysA prevIfaces) ∧
    ("eth0" ∈ (diffInterfaces prevIfaces currIfaces).2.1.map Interface.Name ↔
      "eth0" ∈ keysA prevIfaces ∧ "eth0" ∉ keysA currIfaces) ∧
    List.Sorted nameLE (diffInterfaces prevIfaces currIfaces).1 :=
  ⟨(diffInterfaces_partition prevIfaces currIfaces (by decide) (by decide)).1
     "eth1",
   (diffInterfaces_partition prevIfaces currIfaces (by decide) (by decide)).2.1
     "eth0",
   (diffInterfaces_partition prevIfaces currIfaces (by decide)
     (by decide)).2.2.2.2.2.2.2.1⟩

/-- Sorting strings maps permuted inputs to the same output. -/
theorem sortStrings_eq_of_perm (l l' : List String) (h : l.Perm l') :
    sortStrings l = sortStrings l' :=
  List.eq_of_perm_of_sorted
    ((List.perm_insertionSort _ l).trans
      (h.trans (List.perm_insertionSort _ l').symm))
    (List.sorted_insertionSort _ l) (List.sorted_insertionSort _ l')

/-- The two-sided set difference only depends on the two string sets. -/
theorem diffStringSets_congr (old old' new new' : List String)
    (ho : old.Perm old') (hn : new.Perm new') :
    diffStringSets old new = diffStringSets old' new' := by
  unfold diffStringSets
  have hcont : ∀ (l l' : List String), l.Perm l' →
      ∀ v, (!l.contains v) = (!l'.contains v) := by
    intro l l' hl v
    have : (l.contains v) = (l'.contains v) := by
      rw [Bool.eq_iff_iff]
      simp only [List.contains, List.elem_iff]
      exact hl.mem_iff
    rw [this]
  have h1 : (new.dedup.filter (fun v => !old.contains v)).Perm
      (new'.dedup.filter (fun v => !old'.contains v)) := by
    rw [List.filter_congr (fun v _ => hcont old old' ho v)]
    exact hn.dedup.filter _
  have h2 : (old.dedup.filter (fun v => !new.contains v)).Perm
      (old'.dedup.filter (fun v => !new'.contains v)) := by
    rw [List.filter_congr (fun v _ => hcont new new' hn v)]
    exact ho.dedup.filter _
  rw [sortStrings_eq_of_perm _ _ h1, sortStrings_eq_of_perm _ _ h2]

/-- Pointwise permutation of the values keeps the key list. -/
theorem keysA_eq_of_forall₂ :
    ∀ (m mP : List (String × List String)),
      List.Forall₂ (fun a b => a.1 = b.1 ∧ a.2.Perm b.2) m mP →
      keysA m = keysA mP
  | [], [], _ => rfl
  | (k₁, v₁) :: t, (k₂, v₂) :: tP, h => by
    rcases List.forall₂_cons.mp h with ⟨⟨h1, _⟩, hrest⟩
    simp only [keysA, List.map_cons, List.cons.injEq]
    exact ⟨h1, keysA_eq_of_forall₂ t tP hrest⟩
  | [], _ :: _, h => by cases h
  | _ :: _, [], h => by cases h

/-- Pointwise permutation of the values permutes every lookup result. -/
theorem lookupA_perm_of_forall₂ :
    ∀ (m mP : List (String × List String)),
      List.Forall₂ (fun a b => a.1 = b.1 ∧ a.2.Perm b.2) m mP →
      ∀ k, ((lookupA m k).getD []).Perm ((lookupA mP k).getD [])
  | [], [], _, k => by simp [lookupA]
  | (k₁, v₁) :: t, (k₂, v₂) :: tP, h, k => by
    rcases List.forall₂_cons.mp h with ⟨⟨h1, h2⟩, hrest⟩
    dsimp only at h1 h2
    subst h1
    by_cases hk : k₁ = k
    · simpa [lookupA, hk] using h2
    · simp only [lookupA, if_neg hk]
      exact lookupA_perm_of_forall₂ t tP hrest k
  | [], _ :: _, h, _ => by cases h
  | _ :: _, [], h, _ => by cases h

/-- C4: diffAddresses is invariant under permuting the elements of any
address list on either side — reordering an AddressSet never changes the
reported added and removed sets and produces no spurious entries. -/
theorem diffAddresses_perm_invariant
    (prev prevP curr currP : List (String × List String))
    (hp : List.Forall₂ (fun a b => a.1 = b.1 ∧ a.2.Perm b.2) prev prevP)
    (hc : List.Forall₂ (fun a b => a.1 = b.1 ∧ a.2.Perm b.2) curr currP) :
    diffAddresses prevP currP = diffAddresses prev curr := by
  unfold diffAddresses
  rw [← keysA_eq_of_forall₂ prev prevP hp, ← keysA_eq_of_forall₂ curr currP hc]
  refine congrArg
    (fun f => List.filterMap f (sortStrings ((keysA prev ++ keysA curr).dedup)))
    (funext fun name => ?_)
  have hds : diffStringSets ((lookupA prevP name).getD [])
        ((lookupA currP name).getD []) =
      diffStringSets ((lookupA prev name).getD [])
        ((lookupA curr name).getD []) :=
    diffStringSets_congr _ _ _ _
      (lookupA_perm_of_forall₂ prev prevP hp name).symm
      (lookupA_perm_of_forall₂ curr currP hc name).symm
  simp only [hds]

/-- Witness for C4: permuting both fixture address lists leaves the diff
unchanged. -/
theorem diffAddresses_perm_invariant_witness :
    diffAddresses prevAddrsP currAddrsP = diffAddresses prevAddrs currAddrs :=
  diffAddresses_perm_invariant prevAddrs prevAddrsP currAddrs currAddrsP
    (List.forall₂_cons.mpr ⟨⟨rfl, by decide⟩, List.Forall₂.nil⟩)
    (List.forall₂_cons.mpr ⟨⟨rfl, by decide⟩, List.Forall₂.nil⟩)

/-- Keys of a map update are among the old keys and the written key. -/
theorem keysA_insertA_subset {α : Type} (m : List (String × α)) (k : String)
    (v : α) : keysA (insertA m k v) ⊆ keysA m ++ [k] := by
  rw [keysA_insertA]
  by_cases hs : (lookupA m k).isSome
  · rw [if_pos hs]
    exact List.subset_append_left _ _
  · rw [if_neg hs]
    exact List.Subset.refl _

/-- Under a single-interface filter the collect loop writes only that name. -/
theorem collectAux_keys (w : WatcherM) (hf : w.Interface ≠ "") :
    ∀ (ifaces : List Interface) (snap snapOut : Snapshot),
      (collectAux w ifaces snap).1 = .ok snapOut →
      keysA snap.interfaces ⊆ [w.Interface] →
      keysA snap.addresses ⊆ [w.Interface] →
      keysA snapOut.interfaces ⊆ [w.Interface] ∧
        keysA snapOut.addresses ⊆ [w.Interface]
  | [], snap, snapOut, h, hi, ha => by
    simp only [collectAux, Except.ok.injEq] at h
    subst h
    exact ⟨hi, ha⟩
  | iface :: rest, snap, snapOut, h, hi, ha => by
    by_cases hskip : w.Interface ≠ "" ∧ iface.Name ≠ w.Interface
    · simp only [collectAux, if_pos hskip] at h
      exact collectAux_keys w hf rest snap snapOut h hi ha
    · have hname : iface.Name = w.Interface := by
        rcases not_and_or.mp hskip with h' | h'
        · exact absurd hf h'
        · exact not_not.mp h'
      simp only [collectAux, if_neg hskip] at h
      cases hv : w.viewer iface.Name with
      | error e =>
        rw [hv] at h
        simp at h
      | ok addrs =>
        rw [hv] at h
        dsimp only at h
        refine collectAux_keys w hf rest _ snapOut h ?_ ?_
        · refine (keysA_insertA_subset _ _ _).trans ?_
          rw [hname]
          exact List.append_subset.mpr ⟨hi, List.Subset.refl _⟩
        · refine (keysA_insertA_subset _ _ _).trans ?_
          rw [hname]
          exact List.append_subset.mpr ⟨ha, List.Subset.refl _⟩

/-- When no listed interface passes the filter the collect loop leaves the
accumulating snapshot untouched. -/
theorem collectAux_skip_all (w : WatcherM) (hf : w.Interface ≠ "") :
    ∀ (ifaces : List Interface) (snap : Snapshot),
      (∀ i ∈ ifaces, i.Name ≠ w.Interface) →
      collectAux w ifaces snap = (.ok snap, [])
  | [], snap, _ => rfl
  | iface :: rest, snap, hall => by
    have hcond : w.Interface ≠ "" ∧ iface.Name ≠ w.Interface :=
      ⟨hf, hall iface (List.mem_cons_self _ _)⟩
    simp only [collectAux, if_pos hcond]
    exact collectAux_skip_all w hf rest snap
      (fun i hi => hall i (List.mem_cons_of_mem _ hi))

/-- C9: with a single-interface filter every collected snapshot retains only
that interface's data, and when the filtered interface is absent from the
listing the snapshot still records it, with an empty address set, so its
later appearance shows up as an address addition. -/
theorem collect_filter_retains_target (w : WatcherM) (ifaces : List Interface)
    (snap : Snapshot) (hf : w.Interface ≠ "") (hl : w.lister = .ok ifaces)
    (hok : (collect w).1 = .ok snap) :
    keysA snap.interfaces ⊆ [w.Interface] ∧
    keysA snap.addresses ⊆ [w.Interface] ∧
    ((∀ i ∈ ifaces, i.Name ≠ w.Interface) →
      snap.interfaces = [] ∧
        lookupA snap.addresses w.Interface = some []) := by
  simp only [collect, hl] at hok
  cases hr : (collectAux w ifaces ⟨[], []⟩).1 with
  | error e =>
    rw [hr] at hok
    simp at hok
  | ok snap0 =>
    rw [hr] at hok
    dsimp only at hok
    have hkeys := collectAux_keys w hf ifaces ⟨[], []⟩ snap0 hr
      (by simp [keysA]) (by simp [keysA])
    have habs0 : (∀ i ∈ ifaces, i.Name ≠ w.Interface) → snap0 = ⟨[], []⟩ := by
      intro habs
      have hskip := collectAux_skip_all w hf ifaces ⟨[], []⟩ habs
      rw [hskip] at hr
      simpa using hr.symm
    by_cases hcond : w.Interface ≠ "" ∧
        (lookupA snap0.interfaces w.Interface).isNone
    · rw [if_pos hcond] at hok
      have hsnap : Snapshot.mk snap0.interfaces
          (insertA snap0.addresses w.Interface []) = snap := by
        simpa using hok
      subst hsnap
      refine ⟨hkeys.1, ?_, ?_⟩
      · refine (keysA_insertA_subset _ _ _).trans ?_
        exact List.append_subset.mpr ⟨hkeys.2, List.Subset.refl _⟩
      · intro habs
        have h0 := habs0 habs
        constructor
        · rw [h0]
        · exact lookupA_insertA_self _ _ _
    · rw [if_neg hcond] at hok
      have hsnap : snap0 = snap := by simpa using hok
      subst hsnap
      refine ⟨hkeys.1, hkeys.2, ?_⟩
      intro habs
      have h0 := habs0 habs
      rw [h0] at hcond
      exact absurd ⟨hf, by simp [lookupA]⟩ hcond

/-- Witness for C9: filtering on eth0 while only eth1 is listed yields a
snapshot holding only an empty eth0 address entry. -/
theorem collect_filter_retains_target_witness :
    keysA demoSnap.interfaces ⊆ [demoWatcher.Interface] ∧
    keysA demoSnap.addresses ⊆ [demoWatcher.Interface] ∧
    ((∀ i ∈ [eth1], i.Name ≠ demoWatcher.Interface) →
      demoSnap.interfaces = [] ∧
        lookupA demoSnap.addresses demoWatcher.Interface = some []) :=
  collect_filter_retains_target demoWatcher [eth1] demoSnap (by decide) rfl rfl

end Goeth
